import Mathlib

/-!
# Verification of `src/gan/gen_pyt/model/nn_utils.py`

Shallow embedding of the numeric core of `nn_utils.py`: the padding-mask
builder `length_array_to_mask_tensor`, the masked attention routine
`dot_prod_attention`, and the `LabelSmoothing` loss module.

Conventions of the embedding:
* Python integers are `ℤ` (or `ℕ` where the source value is a size);
  tensor contents are `ℚ` for the label-smoothing template (only field
  operations occur there) and `ℝ` for attention (softmax needs `Real.exp`).
* A Python call that raises (built-in `ValueError` from `max()` on an empty
  list, `ValueError` from `np.zeros` on a negative dimension,
  `ZeroDivisionError`, `IndexError` from out-of-range tensor indexing)
  is modelled as `Option.none`.
* Python slice endpoints and tensor indices are normalised exactly as
  Python does: a negative endpoint counts from the end and is clamped.
-/

namespace NNUtils

/-! ## Mask builder: `length_array_to_mask_tensor`

Source (`nn_utils.py`, lines 30-42):
```
def length_array_to_mask_tensor(length_array, cuda=False, valid_entry_has_mask_one=False):
    max_len = max(length_array)
    batch_size = len(length_array)
    mask = np.zeros((batch_size, max_len), dtype=np.uint8)
    for i, seq_len in enumerate(length_array):
        if valid_entry_has_mask_one:
            mask[i][:seq_len] = 1
        else:
            mask[i][seq_len:] = 1
    mask = torch.ByteTensor(mask)
    return mask.cuda() if cuda else mask
```
The `cuda` flag only moves the tensor between devices and is dropped.
-/

/-- Normalise a Python slice endpoint `s` for a row of length `n`:
a negative endpoint counts from the end (clamped at 0), a non-negative
endpoint is clamped at `n`. -/
def pySliceIdx (n : ℕ) (s : ℤ) : ℕ :=
  if s < 0 then ((n : ℤ) + s).toNat else min s.toNat n

/-- One row of the mask: a `np.zeros` row of length `n` after the
assignment `row[:s] = 1` (when `valid1 = true`) or `row[s:] = 1`
(when `valid1 = false`). -/
def maskRow (n : ℕ) (s : ℤ) (valid1 : Bool) : List ℕ :=
  (List.range n).map (fun j =>
    if valid1 then (if j < pySliceIdx n s then 1 else 0)
    else (if j < pySliceIdx n s then 0 else 1))

/-- Embedding of `length_array_to_mask_tensor`.  `none` models the raised
built-in errors: `max()` on an empty list raises `ValueError`, and
`np.zeros((b, m))` with `m < 0` raises `ValueError`.  Python `max` over a
non-empty list is a left fold of binary `max`. -/
def length_array_to_mask_tensor (length_array : List ℤ)
    (valid_entry_has_mask_one : Bool) : Option (List (List ℕ)) :=
  match length_array with
  | [] => none
  | l :: ls =>
    let max_len := ls.foldl max l
    if max_len < 0 then none
    else some ((l :: ls).map (fun s =>
      maskRow max_len.toNat s valid_entry_has_mask_one))

example :
    length_array_to_mask_tensor [3, 1] false = some [[0, 0, 0], [0, 1, 1]] := by
  decide

example :
    length_array_to_mask_tensor [3, 1] true = some [[1, 1, 1], [1, 0, 0]] := by
  decide

example : length_array_to_mask_tensor [2, 0] false = some [[0, 0], [1, 1]] := by
  decide

example : length_array_to_mask_tensor [] true = none := by decide

example : length_array_to_mask_tensor [-1] true = none := by decide

/-! ## Label smoothing: `LabelSmoothing`

Source (`nn_utils.py`, lines 113-140):
```
class LabelSmoothing(nn.Module):
    def __init__(self, smoothing, tgt_vocab_size, ignore_indices=None):
        if ignore_indices is None: ignore_indices = []
        super(LabelSmoothing, self).__init__()
        self.criterion = nn.KLDivLoss(reduction='none')
        smoothing_value = smoothing / float(tgt_vocab_size - 1 - len(ignore_indices))
        one_hot = torch.zeros((tgt_vocab_size,)).fill_(smoothing_value)
        for idx in ignore_indices:
            one_hot[idx] = 0.
        self.confidence = 1.0 - smoothing
        self.register_buffer('one_hot', one_hot.unsqueeze(0))

    def forward(self, model_prob, target):
        dim = list(model_prob.size())[:-1] + [1]
        true_dist = self.one_hot.repeat(*dim)
        true_dist.scatter_(-1, target.unsqueeze(-1), self.confidence)
        return self.criterion(model_prob, true_dist).sum(dim=-1)
```
The module state after `__init__` is the pair of the scalar `confidence`
and the length-`tgt_vocab_size` buffer `one_hot` (the leading broadcast
dimension added by `unsqueeze(0)` carries no data and is dropped).
`forward` is modelled per position: one `model_prob` row and one integer
`target`.
-/

/-- Normalise a Python/torch index `idx` into a container of length `n`:
a negative index counts from the end; an index outside `[0, n)` after
normalisation raises `IndexError`, modelled as `none`. -/
def pyGetIdx (n : ℕ) (idx : ℤ) : Option ℕ :=
  let j := if idx < 0 then (n : ℤ) + idx else idx
  if 0 ≤ j ∧ j < (n : ℤ) then some j.toNat else none

/-- The loop `for idx in ignore_indices: one_hot[idx] = 0.` over an
accumulator buffer; an out-of-range index raises (`none`). -/
def applyIgnores (n : ℕ) : List ℤ → List ℚ → Option (List ℚ)
  | [], oh => some oh
  | idx :: rest, oh =>
    match pyGetIdx n idx with
    | none => none
    | some j => applyIgnores n rest (oh.set j 0)

/-- State of a constructed `LabelSmoothing` module: the buffer `one_hot`
and the scalar `confidence`. -/
structure LabelSmoothing where
  confidence : ℚ
  one_hot : List ℚ
  deriving Repr, DecidableEq

/-- Embedding of `LabelSmoothing.__init__`.  `none` models the raised
errors: `smoothing / float(0)` raises `ZeroDivisionError` when
`tgt_vocab_size - 1 - len(ignore_indices) = 0`, and `one_hot[idx] = 0.`
raises `IndexError` when `idx` is out of range.  A negative denominator
raises nothing: the division just produces a negative value. -/
def LabelSmoothing.init (smoothing : ℚ) (tgt_vocab_size : ℕ)
    (ignore_indices : Option (List ℤ)) : Option LabelSmoothing :=
  let ii := ignore_indices.getD []
  let denom : ℤ := (tgt_vocab_size : ℤ) - 1 - ii.length
  if denom = 0 then none
  else
    let smoothing_value := smoothing / (denom : ℚ)
    match applyIgnores tgt_vocab_size ii
        (List.replicate tgt_vocab_size smoothing_value) with
    | none => none
    | some oh => some ⟨1 - smoothing, oh⟩

/-- The distribution `true_dist` built inside `forward` for one position:
`one_hot.repeat(...)` copies the template row, then
`scatter_(-1, target, confidence)` overwrites position `target` with
`confidence`.  The claims only use in-range targets, where `List.set`
agrees with torch `scatter_`. -/
def LabelSmoothing.trueDist (ls : LabelSmoothing) (target : ℕ) : List ℚ :=
  ls.one_hot.set target ls.confidence

/-- One term of `nn.KLDivLoss(reduction='none')`: for a log-probability
input `x` and a target probability `y`, the loss is `y * (log y - x)`
(torch computes `xlogy(y, y) - y * x`, which is `0` at `y = 0`, matching
`Real.log 0 = 0`). -/
noncomputable def klTerm (x y : ℝ) : ℝ := y * (Real.log y - x)

/-- Embedding of `LabelSmoothing.forward` for one position: the
KL-divergence terms against `true_dist`, summed over the vocabulary axis
(`.sum(dim=-1)`). -/
noncomputable def LabelSmoothing.forward (ls : LabelSmoothing)
    (model_prob : List ℝ) (target : ℕ) : ℝ :=
  (List.zipWith klTerm model_prob
    ((ls.trueDist target).map (fun q => (q : ℝ)))).sum

example :
    LabelSmoothing.init (2/5) 5 (some [0]) =
      some ⟨3/5, [0, 2/15, 2/15, 2/15, 2/15]⟩ := by
  simp only [LabelSmoothing.init, applyIgnores, pyGetIdx, List.replicate,
    Option.getD, List.length]
  norm_num [List.set]

example :
    (LabelSmoothing.init (2/5) 5 (some [0])).map
        (fun ls => ls.trueDist 2) =
      some [0, 2/15, 3/5, 2/15, 2/15] := by
  simp only [LabelSmoothing.init, applyIgnores, pyGetIdx, List.replicate,
    Option.getD, List.length]
  norm_num [List.set, LabelSmoothing.trueDist]

example : (LabelSmoothing.init (2/5) 2 (some [0, 1])).isSome = true := by
  decide

example : LabelSmoothing.init (2/5) 3 (some [0, 1]) = none := by decide

example : LabelSmoothing.init (2/5) 3 (some [5]) = none := by decide

example :
    LabelSmoothing.init (2/5) 5 none = LabelSmoothing.init (2/5) 5 (some []) := by
  rfl

/-! ## Attention: `dot_prod_attention`

Source (`nn_utils.py`, lines 10-27):
```
def dot_prod_attention(h_t, src_encoding, src_encoding_att_linear, mask=None):
    att_weight = torch.bmm(src_encoding_att_linear, h_t.unsqueeze(2)).squeeze(2)
    if mask is not None:
        att_weight.data.masked_fill_(mask.bool(), -float('inf'))
    att_weight = F.softmax(att_weight, dim=-1)
    att_view = (att_weight.size(0), 1, att_weight.size(1))
    ctx_vec = torch.bmm(att_weight.view(*att_view), src_encoding).squeeze(1)
    return ctx_vec, att_weight
```
All operations act independently per batch element, so the embedding
models one batch element: `h_t : List ℝ` (hidden), the encodings as lists
of row vectors, and the mask as one row of the byte mask (`mask.bool()`
is true exactly at nonzero entries).  Real numbers have no `-inf`; the
embedding uses the identity `exp(-inf) = 0`: a position filled with
`-inf` before `softmax` contributes `0` to the numerator and to the
denominator, which is exactly `softmaxMasked` below. -/

/-- Dot product of two vectors (one row of `torch.bmm` against `h_t`). -/
def dotProd (u v : List ℝ) : ℝ := (List.zipWith (fun a b => a * b) u v).sum

/-- Softmax denominator over the unmasked positions: the sum of
`exp(score)` over positions whose mask byte is `0` (positions with a
nonzero byte were filled with `-inf`, and `exp(-inf) = 0`). -/
noncomputable def maskDenom (scores : List ℝ) (mask : List ℕ) : ℝ :=
  (((scores.zip mask).filter (fun p => p.2 == 0)).map
    (fun p => Real.exp p.1)).sum

/-- `F.softmax` applied after `masked_fill_(mask.bool(), -inf)`: a masked
position gets weight `0`, an unmasked position gets
`exp(score) / maskDenom`. -/
noncomputable def softmaxMasked (scores : List ℝ) (mask : List ℕ) : List ℝ :=
  (scores.zip mask).map (fun p =>
    if p.2 == 0 then Real.exp p.1 / maskDenom scores mask else 0)

/-- The context vector `torch.bmm(att_weight.view(...), src_encoding)` for
one batch element: component `k` is the attention-weighted sum of the
`k`-th components of the encoding rows. -/
def ctxVec (w : List ℝ) (enc : List (List ℝ)) : List ℝ :=
  (List.range (enc.headD []).length).map (fun k =>
    (List.zipWith (fun wj row => wj * row.getD k 0) w enc).sum)

/-- Embedding of `dot_prod_attention` for one batch element.  With
`mask = none` the `masked_fill_` line is skipped, which coincides with an
all-zero mask row. -/
noncomputable def dot_prod_attention (h_t : List ℝ)
    (src_encoding src_encoding_att_linear : List (List ℝ))
    (mask : Option (List ℕ)) : List ℝ × List ℝ :=
  let att_weight := src_encoding_att_linear.map (fun row => dotProd row h_t)
  let m := match mask with
    | some m => m
    | none => List.replicate att_weight.length 0
  let w := softmaxMasked att_weight m
  (ctxVec w src_encoding, w)

/-! ## Heap model for `LabelSmoothing.forward`

`forward` manipulates torch tensors, which are mutable buffers.  To state
the frame property of claim C7 (the registered `one_hot` buffer is never
mutated by `forward`) the buffer operations of the two relevant lines are
replayed against an explicit store: `repeat` allocates a fresh buffer
holding copies of the template data, and `scatter_` mutates its receiver
in place. -/

/-- A store of `ℚ`-buffers; a tensor is a reference (index) into it. -/
abbrev Store : Type := List (List ℚ)

/-- Read the buffer at reference `r` (empty if dangling). -/
def Store.read (σ : Store) (r : ℕ) : List ℚ := σ.getD r []

/-- Allocate a fresh buffer, returning its reference and the new store. -/
def Store.alloc (σ : Store) (buf : List ℚ) : ℕ × Store :=
  (σ.length, σ ++ [buf])

/-- Overwrite the buffer at reference `r` in place. -/
def Store.write (σ : Store) (r : ℕ) (buf : List ℚ) : Store := σ.set r buf

/-- The buffer operations of `LabelSmoothing.forward` on the store:
`true_dist = self.one_hot.repeat(*dim)` allocates a fresh buffer with a
copy of the template row, then `true_dist.scatter_(-1, target, confidence)`
mutates that fresh buffer in place.  Returns the reference of `true_dist`
and the post-call store. -/
def forwardHeap (σ : Store) (r : ℕ) (confidence : ℚ) (target : ℕ) :
    ℕ × Store :=
  let alloc := σ.alloc (σ.read r)
  let σ₁ := alloc.2
  let r₁ := alloc.1
  let σ₂ := σ₁.write r₁ ((σ₁.read r₁).set target confidence)
  (r₁, σ₂)

/-! ## Helper lemmas about the mask builder -/

/-- The initial accumulator is below a left fold of `max`. -/
lemma le_foldl_max_init (ls : List ℤ) (a : ℤ) : a ≤ ls.foldl max a := by
  induction ls generalizing a with
  | nil => exact le_refl a
  | cons x xs ih => exact le_trans (le_max_left a x) (ih (max a x))

/-- Every member of the list is below a left fold of `max`. -/
lemma mem_le_foldl_max (ls : List ℤ) (a : ℤ) :
    ∀ x ∈ ls, x ≤ ls.foldl max a := by
  induction ls generalizing a with
  | nil => intro x hx; cases hx
  | cons y ys ih =>
    intro x hx
    rcases List.mem_cons.mp hx with h | h
    · subst h
      exact le_trans (le_max_right a x) (le_foldl_max_init ys (max a x))
    · exact ih (max a y) x h

/-- A threshold comparison mapped over `List.range` is a pair of constant
blocks. -/
lemma range_map_ite {α : Type} (a b : α) (n k : ℕ) (hk : k ≤ n) :
    (List.range n).map (fun j => if j < k then a else b) =
      List.replicate k a ++ List.replicate (n - k) b := by
  induction n generalizing k with
  | zero =>
    have hk0 : k = 0 := Nat.le_zero.mp hk
    subst hk0
    rfl
  | succ m ih =>
    rw [List.range_succ, List.map_append]
    rcases Nat.lt_or_ge m k with hmk | hmk
    · have hk1 : k = m + 1 := by omega
      subst hk1
      have h1 : (List.range m).map (fun j => if j < m + 1 then a else b) =
          List.replicate m a ++ List.replicate (m - m) b := by
        rw [List.map_congr_left (g := fun j => if j < m then a else b)
          (fun j hj => by
            have hjm : j < m := List.mem_range.mp hj
            simp [hjm, Nat.lt_succ_of_lt hjm])]
        exact ih m (le_refl m)
      rw [h1]
      simp [List.replicate_succ']
    · rw [ih k hmk]
      have hb : (if m < k then a else b) = b := by
        simp [Nat.not_lt.mpr hmk]
      simp only [List.map_cons, List.map_nil, hb, List.append_assoc]
      have : m + 1 - k = (m - k) + 1 := by omega
      rw [this, List.replicate_succ']

/-- For `0 ≤ s ≤ n`, a mask row is a block of valid markers followed by a
block of padding markers. -/
lemma maskRow_eq_replicate (n : ℕ) (s : ℤ) (h0 : 0 ≤ s) (hn : s ≤ (n : ℤ))
    (b : Bool) :
    maskRow n s b =
      List.replicate s.toNat (if b then 1 else 0) ++
        List.replicate (n - s.toNat) (if b then 0 else 1) := by
  have hidx : pySliceIdx n s = s.toNat := by
    unfold pySliceIdx
    rw [if_neg (not_lt.mpr h0)]
    exact min_eq_left (by omega)
  have hsn : s.toNat ≤ n := by omega
  cases b
  · simpa [maskRow, hidx] using range_map_ite (0 : ℕ) 1 n s.toNat hsn
  · simpa [maskRow, hidx] using range_map_ite (1 : ℕ) 0 n s.toNat hsn

/-- On a non-empty list of positive lengths the builder succeeds and
returns one `maskRow` per entry. -/
lemma mask_tensor_pos_eq (l : ℤ) (ls : List ℤ) (b : Bool)
    (hpos : ∀ x ∈ l :: ls, 1 ≤ x) :
    length_array_to_mask_tensor (l :: ls) b =
      some ((l :: ls).map (fun s => maskRow (ls.foldl max l).toNat s b)) := by
  have h1 : (1 : ℤ) ≤ l := hpos l (by simp)
  have hmax : 1 ≤ ls.foldl max l := le_trans h1 (le_foldl_max_init ls l)
  simp only [length_array_to_mask_tensor]
  rw [if_neg (by omega)]

/-- Entries of a positive length list sit between `0` and the fold max. -/
lemma entry_le_max (l : ℤ) (ls : List ℤ) (i : ℕ)
    (hi : i < (l :: ls).length) (hpos : ∀ x ∈ l :: ls, 1 ≤ x) :
    1 ≤ (l :: ls).getD i 0 ∧
      (l :: ls).getD i 0 ≤ (((ls.foldl max l).toNat : ℕ) : ℤ) := by
  have hmem : (l :: ls).getD i 0 ∈ l :: ls := by
    rw [List.getD_eq_getElem _ _ hi]
    exact List.getElem_mem hi
  have h1 : 1 ≤ (l :: ls).getD i 0 := hpos _ hmem
  have hmax : 1 ≤ ls.foldl max l :=
    le_trans (hpos l (by simp)) (le_foldl_max_init ls l)
  have hle : (l :: ls).getD i 0 ≤ ls.foldl max l := by
    rcases List.mem_cons.mp hmem with h | h
    · rw [h]; exact le_foldl_max_init ls l
    · exact mem_le_foldl_max ls l _ h
  exact ⟨h1, by omega⟩

/-- Reading row `i` of the built mask gives the `maskRow` of entry `i`. -/
lemma map_maskRow_getD (l : ℤ) (ls : List ℤ) (n : ℕ) (b : Bool) (i : ℕ)
    (hi : i < (l :: ls).length) :
    ((l :: ls).map (fun s => maskRow n s b)).getD i [] =
      maskRow n ((l :: ls).getD i 0) b := by
  rw [List.getD_eq_getElem _ _ (by simpa using hi), List.getElem_map,
    List.getD_eq_getElem _ _ hi]

/-- At each in-range position, the two polarities of `maskRow` are
complementary: one holds `1`, the other `0`. -/
lemma maskRow_getD_compl (n : ℕ) (s : ℤ) (j : ℕ) (hj : j < n) :
    ((maskRow n s true).getD j 0 = 1 ∧ (maskRow n s false).getD j 0 = 0) ∨
      ((maskRow n s true).getD j 0 = 0 ∧ (maskRow n s false).getD j 0 = 1) := by
  have hlen : ∀ b : Bool, (maskRow n s b).length = n := by
    intro b; simp [maskRow]
  have ht : (maskRow n s true).getD j 0 =
      if j < pySliceIdx n s then 1 else 0 := by
    rw [List.getD_eq_getElem _ _ (by rw [hlen]; exact hj)]
    simp [maskRow]
  have hf : (maskRow n s false).getD j 0 =
      if j < pySliceIdx n s then 0 else 1 := by
    rw [List.getD_eq_getElem _ _ (by rw [hlen]; exact hj)]
    simp [maskRow]
  by_cases h : j < pySliceIdx n s
  · left; rw [ht, hf]; simp [h]
  · right; rw [ht, hf]; simp [h]

/-! ## Claims about the mask builder -/

/-- Claim C3: for every non-empty list of positive lengths and either
polarity flag, `length_array_to_mask_tensor` returns a matrix of shape
`(len(lengths), max(lengths))` in which row `i` is a block of
`lengths[i]` valid-polarity markers followed by a block of
`max(lengths) - lengths[i]` padding-polarity markers (right padding);
in particular `lengths = [3, 1]` with the default padding-has-value
polarity yields `[[0,0,0],[0,1,1]]`. -/
theorem claim_C3 :
    (∀ (l : ℤ) (ls : List ℤ) (b : Bool),
      (∀ x ∈ l :: ls, 1 ≤ x) →
      ∃ M, length_array_to_mask_tensor (l :: ls) b = some M ∧
        M.length = (l :: ls).length ∧
        ∀ i < (l :: ls).length,
          (M.getD i []).length = (ls.foldl max l).toNat ∧
          M.getD i [] =
            List.replicate ((l :: ls).getD i 0).toNat (if b then 1 else 0) ++
              List.replicate
                ((ls.foldl max l).toNat - ((l :: ls).getD i 0).toNat)
                (if b then 0 else 1)) ∧
    length_array_to_mask_tensor [3, 1] false = some [[0, 0, 0], [0, 1, 1]] := by
  constructor
  · intro l ls b hpos
    refine ⟨_, mask_tensor_pos_eq l ls b hpos, by simp, ?_⟩
    intro i hi
    obtain ⟨h1, h2⟩ := entry_le_max l ls i hi hpos
    rw [map_maskRow_getD l ls _ b i hi,
      maskRow_eq_replicate _ _ (by omega) h2 b]
    have hsn : ((l :: ls).getD i 0).toNat ≤ (ls.foldl max l).toNat := by
      omega
    constructor
    · simp only [List.length_append, List.length_replicate]
      omega
    · rfl
  · decide

/-- Claim C4 (counterexample): the claim says the call fails whenever
`lengths` contains a non-positive value, but `[2, 0]` contains `0` and
the call succeeds, returning `[[0,0],[1,1]]` (the assignment
`mask[i][0:] = 1` just fills the whole row). -/
theorem claim_C4_counterexample :
    length_array_to_mask_tensor [2, 0] false = some [[0, 0], [1, 1]] := by
  decide

/-- Claim C4 (amended): the source has no `InvalidInputError`;
`length_array_to_mask_tensor` raises a built-in error (modelled `none`)
exactly when `lengths` is empty (`max()` raises `ValueError`) or when
`max(lengths)` is negative (`np.zeros` raises `ValueError`); any other
integer list succeeds, including lists with non-positive entries whose
maximum is non-negative. -/
theorem claim_C4_amended :
    ∀ (b : Bool),
      length_array_to_mask_tensor [] b = none ∧
      ∀ (l : ℤ) (ls : List ℤ),
        (length_array_to_mask_tensor (l :: ls) b = none ↔
          ls.foldl max l < 0) := by
  intro b
  refine ⟨rfl, ?_⟩
  intro l ls
  simp only [length_array_to_mask_tensor]
  by_cases h : ls.foldl max l < 0
  · simp [h]
  · simp [h]

/-- Claim C9: for every non-empty list of positive lengths, the mask with
`valid_entry_has_mask_one = true` is the elementwise complement of the
mask with `valid_entry_has_mask_one = false`: at every in-range position
exactly one of the two holds `1` and the other holds `0`. -/
theorem claim_C9 (l : ℤ) (ls : List ℤ) (hpos : ∀ x ∈ l :: ls, 1 ≤ x) :
    ∃ M₁ M₂, length_array_to_mask_tensor (l :: ls) true = some M₁ ∧
      length_array_to_mask_tensor (l :: ls) false = some M₂ ∧
      ∀ i < (l :: ls).length, ∀ j < (ls.foldl max l).toNat,
        (((M₁.getD i []).getD j 0 = 1 ∧ (M₂.getD i []).getD j 0 = 0) ∨
          ((M₁.getD i []).getD j 0 = 0 ∧ (M₂.getD i []).getD j 0 = 1)) := by
  refine ⟨_, _, mask_tensor_pos_eq l ls true hpos,
    mask_tensor_pos_eq l ls false hpos, ?_⟩
  intro i hi j hj
  rw [map_maskRow_getD l ls _ true i hi, map_maskRow_getD l ls _ false i hi]
  exact maskRow_getD_compl _ _ j hj

/-- Witness for claim C3 at `lengths = [3, 1]`, padding-has-value polarity. -/
theorem claim_C3_witness :
    ∃ M, length_array_to_mask_tensor (3 :: [1]) false = some M ∧
      M.length = ((3 : ℤ) :: [1]).length ∧
      ∀ i < ((3 : ℤ) :: [1]).length,
        (M.getD i []).length = (([1] : List ℤ).foldl max 3).toNat ∧
        M.getD i [] =
          List.replicate (((3 : ℤ) :: [1]).getD i 0).toNat
              (if false then 1 else 0) ++
            List.replicate
              ((([1] : List ℤ).foldl max 3).toNat -
                (((3 : ℤ) :: [1]).getD i 0).toNat)
              (if false then 0 else 1) :=
  claim_C3.1 3 [1] false (by decide)

/-- Witness for claim C9 at `lengths = [3, 1]`. -/
theorem claim_C9_witness :
    ∃ M₁ M₂, length_array_to_mask_tensor (3 :: [1]) true = some M₁ ∧
      length_array_to_mask_tensor (3 :: [1]) false = some M₂ ∧
      ∀ i < ((3 : ℤ) :: [1]).length,
        ∀ j < (([1] : List ℤ).foldl max 3).toNat,
          (((M₁.getD i []).getD j 0 = 1 ∧ (M₂.getD i []).getD j 0 = 0) ∨
            ((M₁.getD i []).getD j 0 = 0 ∧ (M₂.getD i []).getD j 0 = 1)) :=
  claim_C9 3 [1] (by decide)

/-! ## Helper lemmas about `LabelSmoothing` -/

/-- `applyIgnores` fails exactly when some ignored index is out of range. -/
lemma applyIgnores_eq_none (n : ℕ) :
    ∀ (ii : List ℤ) (acc : List ℚ),
      (applyIgnores n ii acc = none ↔ ∃ idx ∈ ii, pyGetIdx n idx = none) := by
  intro ii
  induction ii with
  | nil => intro acc; simp [applyIgnores]
  | cons idx rest ih =>
    intro acc
    simp only [applyIgnores]
    cases h : pyGetIdx n idx with
    | none => exact iff_of_true rfl ⟨idx, List.mem_cons_self idx rest, h⟩
    | some j =>
      rw [ih (acc.set j 0)]
      simp [List.mem_cons, h]

/-- When every ignored index is in range, `applyIgnores` succeeds and
zeroes exactly the listed positions. -/
lemma applyIgnores_inRange (n : ℕ) :
    ∀ (ii : List ℤ) (acc : List ℚ), acc.length = n →
      (∀ idx ∈ ii, 0 ≤ idx ∧ idx < (n : ℤ)) →
      ∃ res, applyIgnores n ii acc = some res ∧ res.length = n ∧
        ∀ j < n, res.getD j 0 =
          if (j : ℤ) ∈ ii then 0 else acc.getD j 0 := by
  intro ii
  induction ii with
  | nil =>
    intro acc hlen _
    exact ⟨acc, rfl, hlen, fun j hj => by simp⟩
  | cons idx rest ih =>
    intro acc hlen hII
    obtain ⟨h0, hn⟩ := hII idx (List.mem_cons_self idx rest)
    have h1 : ¬ idx < 0 := not_lt.mpr h0
    have hget : pyGetIdx n idx = some idx.toNat := by
      simp [pyGetIdx, h1, h0, hn]
    obtain ⟨res, hres, hreslen, hresget⟩ :=
      ih (acc.set idx.toNat 0) (by simp [hlen])
        (fun x hx => hII x (List.mem_cons_of_mem idx hx))
    refine ⟨res, ?_, hreslen, ?_⟩
    · simp only [applyIgnores, hget]
      exact hres
    · intro j hj
      rw [hresget j hj]
      by_cases hjr : (j : ℤ) ∈ rest
      · simp [hjr, List.mem_cons]
      · by_cases hji : (j : ℤ) = idx
        · have hjn : idx.toNat = j := by omega
          rw [if_neg hjr, if_pos (by simp [List.mem_cons, hji])]
          rw [List.getD_eq_getElem _ _ (by rw [List.length_set, hlen]; exact hj)]
          simp [List.getElem_set, hjn]
        · rw [if_neg hjr, if_neg (by simp [List.mem_cons, hji, hjr])]
          rw [List.getD_eq_getElem _ _ (by rw [List.length_set, hlen]; exact hj),
            List.getD_eq_getElem _ _ (by rw [hlen]; exact hj)]
          have hne : idx.toNat ≠ j := by omega
          simp [List.getElem_set, hne]

/-- Characterisation of a successful `LabelSmoothing.init`: `confidence`
is `1 - smoothing` and the template holds `smoothing_value` everywhere
except `0` at the ignored indices. -/
lemma init_characterization (smoothing : ℚ) (V : ℕ) (ii : List ℤ)
    (hden : (V : ℤ) - 1 - ii.length ≠ 0)
    (hII : ∀ idx ∈ ii, 0 ≤ idx ∧ idx < (V : ℤ)) :
    ∃ ls, LabelSmoothing.init smoothing V (some ii) = some ls ∧
      ls.confidence = 1 - smoothing ∧
      ls.one_hot.length = V ∧
      ∀ j < V, ls.one_hot.getD j 0 =
        if (j : ℤ) ∈ ii then 0
        else smoothing / (((V : ℤ) - 1 - ii.length : ℤ) : ℚ) := by
  obtain ⟨res, hres, hlen, hget⟩ := applyIgnores_inRange V ii
    (List.replicate V (smoothing / (((V : ℤ) - 1 - ii.length : ℤ) : ℚ)))
    (by simp) hII
  refine ⟨⟨1 - smoothing, res⟩, ?_, rfl, hlen, ?_⟩
  · simp only [LabelSmoothing.init, Option.getD_some]
    rw [if_neg hden, hres]
  · intro j hj
    rw [hget j hj]
    by_cases h : (j : ℤ) ∈ ii
    · simp [h]
    · rw [if_neg h, if_neg h,
        List.getD_eq_getElem _ _ (by rw [List.length_replicate]; exact hj),
        List.getElem_replicate]

/-- The sum of a `ℚ`-list as a `Finset.range` sum of its entries. -/
lemma list_sum_eq_getD (l : List ℚ) :
    l.sum = ∑ j ∈ Finset.range l.length, l.getD j 0 := by
  induction l with
  | nil => simp
  | cons a t ih =>
    rw [List.sum_cons, List.length_cons, Finset.sum_range_succ']
    simp only [List.getD_cons_succ, List.getD_cons_zero]
    rw [← ih]
    ring

/-- The number of positions of `range V` whose cast sits in a nodup,
in-range integer list is the length of the list. -/
lemma card_filter_mem (V : ℕ) (ii : List ℤ) (hnd : ii.Nodup)
    (hII : ∀ idx ∈ ii, 0 ≤ idx ∧ idx < (V : ℤ)) :
    ((Finset.range V).filter (fun j : ℕ => (j : ℤ) ∈ ii)).card = ii.length := by
  rw [← List.toFinset_card_of_nodup hnd]
  refine Finset.card_bij (fun a _ => (a : ℤ)) ?_ ?_ ?_
  · intro a ha
    simp only [Finset.mem_filter] at ha
    exact List.mem_toFinset.mpr ha.2
  · intro a₁ h₁ a₂ h₂ h
    have h' : (a₁ : ℤ) = (a₂ : ℤ) := h
    exact_mod_cast h'
  · intro idx hidx
    have hmem : idx ∈ ii := List.mem_toFinset.mp hidx
    obtain ⟨h0, hV⟩ := hII idx hmem
    refine ⟨idx.toNat, ?_, ?_⟩
    · simp only [Finset.mem_filter, Finset.mem_range]
      refine ⟨by omega, ?_⟩
      rw [Int.toNat_of_nonneg h0]
      exact hmem
    · show ((idx.toNat : ℕ) : ℤ) = idx
      exact Int.toNat_of_nonneg h0

/-- Entry `j` of the distribution built in `forward`: `confidence` at the
target, the template entry elsewhere. -/
lemma trueDist_getD (ls : LabelSmoothing) (t j : ℕ)
    (hj : j < ls.one_hot.length) :
    (ls.trueDist t).getD j 0 =
      if j = t then ls.confidence else ls.one_hot.getD j 0 := by
  unfold LabelSmoothing.trueDist
  rw [List.getD_eq_getElem _ _ (by rw [List.length_set]; exact hj)]
  by_cases h : j = t
  · simp [List.getElem_set, h]
  · rw [if_neg h, List.getD_eq_getElem _ _ hj]
    have hne : t ≠ j := fun hh => h hh.symm
    simp [List.getElem_set, hne]

/-- Sum of the distribution built in `forward`: `1` when the target is
not an ignored index, `1 + smoothing_value` when it is (the scatter-write
overwrites the `0` the template held there). -/
lemma trueDist_sum (smoothing : ℚ) (V : ℕ) (ii : List ℤ) (ls : LabelSmoothing)
    (hinit : LabelSmoothing.init smoothing V (some ii) = some ls)
    (hnd : ii.Nodup) (hII : ∀ idx ∈ ii, 0 ≤ idx ∧ idx < (V : ℤ))
    (hden : 0 < (V : ℤ) - 1 - ii.length)
    (t : ℕ) (ht : t < V) :
    (ls.trueDist t).sum =
      if (t : ℤ) ∈ ii
      then 1 + smoothing / (((V : ℤ) - 1 - ii.length : ℤ) : ℚ)
      else 1 := by
  obtain ⟨ls', hls', hconf, hlen, hget⟩ :=
    init_characterization smoothing V ii (by omega) hII
  rw [hinit] at hls'
  have hee : ls = ls' := Option.some_inj.mp hls'
  subst hee
  have hdlen : (ls.trueDist t).length = V := by
    unfold LabelSmoothing.trueDist
    rw [List.length_set]
    exact hlen
  rw [list_sum_eq_getD, hdlen]
  have hentry : ∀ j ∈ Finset.range V,
      (ls.trueDist t).getD j 0 =
        if j = t then 1 - smoothing
        else if (j : ℤ) ∈ ii then 0
        else smoothing / (((V : ℤ) - 1 - ii.length : ℤ) : ℚ) := by
    intro j hj
    have hjV := Finset.mem_range.mp hj
    rw [trueDist_getD ls t j (by rw [hlen]; exact hjV), hconf]
    by_cases h : j = t
    · simp [h]
    · rw [if_neg h, if_neg h, hget j hjV]
  rw [Finset.sum_congr rfl hentry]
  have htmem : t ∈ Finset.range V := Finset.mem_range.mpr ht
  rw [← Finset.add_sum_erase _ _ htmem, if_pos rfl]
  have herase : ∑ j ∈ (Finset.range V).erase t,
      (if j = t then 1 - smoothing
        else if (j : ℤ) ∈ ii then 0
        else smoothing / (((V : ℤ) - 1 - ii.length : ℤ) : ℚ)) =
      ∑ j ∈ (Finset.range V).erase t,
        (if (j : ℤ) ∈ ii then (0 : ℚ)
          else smoothing / (((V : ℤ) - 1 - ii.length : ℤ) : ℚ)) :=
    Finset.sum_congr rfl (fun j hj => if_neg (Finset.ne_of_mem_erase hj))
  rw [herase, Finset.sum_ite, Finset.sum_const_zero, zero_add,
    Finset.sum_const, nsmul_eq_mul]
  have hB : ((Finset.range V).filter (fun j : ℕ => (j : ℤ) ∈ ii)).card =
      ii.length := card_filter_mem V ii hnd hII
  rw [Finset.filter_erase, Finset.filter_not]
  have hsub : (Finset.range V).filter (fun j : ℕ => (j : ℤ) ∈ ii) ⊆
      Finset.range V := Finset.filter_subset _ _
  have hcard_sdiff :
      ((Finset.range V) \
        (Finset.range V).filter (fun j : ℕ => (j : ℤ) ∈ ii)).card =
        V - ii.length := by
    rw [Finset.card_sdiff hsub, Finset.card_range, hB]
  have hLV : ii.length + 1 < V := by omega
  have hne : ((((V : ℤ) - 1 - ii.length : ℤ)) : ℚ) ≠ 0 := by
    have hpos : (0 : ℚ) < (((V : ℤ) - 1 - ii.length : ℤ) : ℚ) := by
      exact_mod_cast hden
    exact ne_of_gt hpos
  by_cases hti : (t : ℤ) ∈ ii
  · rw [if_pos hti]
    have htnot : t ∉ (Finset.range V) \
        ((Finset.range V).filter (fun j : ℕ => (j : ℤ) ∈ ii)) := by
      intro hmem2
      exact (Finset.mem_sdiff.mp hmem2).2
        (Finset.mem_filter.mpr ⟨htmem, hti⟩)
    rw [Finset.erase_eq_of_not_mem htnot, hcard_sdiff]
    have hcast : ((V - ii.length : ℕ) : ℚ) = (V : ℚ) - ii.length := by
      have hle : ii.length ≤ V := by omega
      push_cast [hle]
      ring
    rw [hcast]
    rw [show ((((V : ℤ) - 1 - ii.length : ℤ)) : ℚ) =
      (V : ℚ) - 1 - ii.length by push_cast; ring] at hne ⊢
    field_simp
    ring
  · rw [if_neg hti]
    have htin : t ∈ (Finset.range V) \
        ((Finset.range V).filter (fun j : ℕ => (j : ℤ) ∈ ii)) := by
      simp only [Finset.mem_sdiff, Finset.mem_filter]
      exact ⟨htmem, fun hcon => hti hcon.2⟩
    rw [Finset.card_erase_of_mem htin, hcard_sdiff]
    have hcast : ((V - ii.length - 1 : ℕ) : ℚ) = (V : ℚ) - ii.length - 1 := by
      have hle : ii.length + 1 ≤ V := by omega
      push_cast [Nat.cast_sub (by omega : ii.length ≤ V),
        Nat.cast_sub (by omega : 1 ≤ V - ii.length)]
      ring
    rw [hcast]
    rw [show ((((V : ℤ) - 1 - ii.length : ℤ)) : ℚ) =
      (V : ℚ) - 1 - ii.length by push_cast; ring] at hne ⊢
    field_simp
    ring

/-! ## Claims about `LabelSmoothing` -/

/-- Claim C2: for a `LabelSmoothing` loss constructed with smoothing in
`(0,1)`, vocabulary size `V` and an in-range ignored index set with
`V - 1 - |I| > 0`, and any target not in the ignored set, the
distribution built in `forward` is `0` at every ignored index, holds
`confidence = 1 - smoothing` at the target, holds
`smoothing / (V - 1 - |I|)` everywhere else, and sums to `1`; for
`V = 5`, `smoothing = 0.4`, `I = {0}`, `target = 2` this gives
`[0, 0.1333…, 0.6, 0.1333…, 0.1333…]`. -/
theorem claim_C2 :
    (∀ (smoothing : ℚ) (V : ℕ) (ii : List ℤ) (ls : LabelSmoothing) (t : ℕ),
      LabelSmoothing.init smoothing V (some ii) = some ls →
      0 < smoothing → smoothing < 1 →
      ii.Nodup → (∀ idx ∈ ii, 0 ≤ idx ∧ idx < (V : ℤ)) →
      0 < (V : ℤ) - 1 - ii.length →
      t < V → (t : ℤ) ∉ ii →
      ((∀ idx ∈ ii, (ls.trueDist t).getD idx.toNat 0 = 0) ∧
        (ls.trueDist t).getD t 0 = 1 - smoothing ∧
        (∀ j < V, (j : ℤ) ∉ ii → j ≠ t →
          (ls.trueDist t).getD j 0 =
            smoothing / (((V : ℤ) - 1 - ii.length : ℤ) : ℚ)) ∧
        (ls.trueDist t).sum = 1)) ∧
    ((LabelSmoothing.init (2/5) 5 (some [0])).map
        (fun ls => ls.trueDist 2) = some [0, 2/15, 3/5, 2/15, 2/15] ∧
      |(2/15 : ℚ) - 0.1333| < 1/10000 ∧ (3/5 : ℚ) = 0.6) := by
  constructor
  · intro smoothing V ii ls t hinit hs0 hs1 hnd hII hden ht hti
    obtain ⟨ls', hls', hconf, hlen, hget⟩ :=
      init_characterization smoothing V ii (by omega) hII
    rw [hinit] at hls'
    have hee : ls = ls' := Option.some_inj.mp hls'
    subst hee
    refine ⟨?_, ?_, ?_, ?_⟩
    · intro idx hidx
      obtain ⟨h0, hV⟩ := hII idx hidx
      have hiV : idx.toNat < V := by omega
      have hne : idx.toNat ≠ t := by
        intro hh
        apply hti
        have hcast : ((idx.toNat : ℕ) : ℤ) = idx := Int.toNat_of_nonneg h0
        rw [hh] at hcast
        rw [hcast]
        exact hidx
      rw [trueDist_getD ls t idx.toNat (by rw [hlen]; exact hiV),
        if_neg hne, hget idx.toNat hiV,
        if_pos (by rw [Int.toNat_of_nonneg h0]; exact hidx)]
    · rw [trueDist_getD ls t t (by rw [hlen]; exact ht), if_pos rfl, hconf]
    · intro j hj hjii hjt
      rw [trueDist_getD ls t j (by rw [hlen]; exact hj), if_neg hjt,
        hget j hj, if_neg hjii]
    · have hsum := trueDist_sum smoothing V ii ls hinit hnd hII hden t ht
      rw [if_neg hti] at hsum
      exact hsum
  · refine ⟨?_, by rw [abs_lt]; constructor <;> norm_num, by norm_num⟩
    simp only [LabelSmoothing.init, applyIgnores, pyGetIdx, List.replicate,
      Option.getD_some, List.length]
    norm_num [List.set, LabelSmoothing.trueDist]

/-- Witness for claim C2 at `smoothing = 2/5`, `V = 5`, `I = [0]`,
`target = 2`. -/
theorem claim_C2_witness :
    (∀ idx ∈ ([0] : List ℤ),
      ((⟨3/5, [0, 2/15, 2/15, 2/15, 2/15]⟩ :
        LabelSmoothing).trueDist 2).getD idx.toNat 0 = 0) ∧
    ((⟨3/5, [0, 2/15, 2/15, 2/15, 2/15]⟩ :
      LabelSmoothing).trueDist 2).getD 2 0 = 1 - 2/5 ∧
    (∀ j : ℕ, j < 5 → (j : ℤ) ∉ ([0] : List ℤ) → j ≠ 2 →
      ((⟨3/5, [0, 2/15, 2/15, 2/15, 2/15]⟩ :
        LabelSmoothing).trueDist 2).getD j 0 =
        (2/5 : ℚ) / ((((5 : ℕ) : ℤ) - 1 - (([0] : List ℤ).length : ℤ) : ℤ) : ℚ)) ∧
    ((⟨3/5, [0, 2/15, 2/15, 2/15, 2/15]⟩ :
      LabelSmoothing).trueDist 2).sum = 1 :=
  claim_C2.1 (2/5) 5 [0] ⟨3/5, [0, 2/15, 2/15, 2/15, 2/15]⟩ 2
    (by
      simp only [LabelSmoothing.init, applyIgnores, pyGetIdx, List.replicate,
        Option.getD_some, List.length]
      norm_num [List.set])
    (by norm_num) (by norm_num) (by decide) (by decide) (by decide)
    (by decide) (by decide)

/-- Claim C8: the scatter-write in `forward` overwrites the template
entry at the target unconditionally, even when the target is an ignored
index; in that case the distribution holds `confidence` there and sums to
`1 + smoothing_value` rather than `1`. -/
theorem claim_C8 (smoothing : ℚ) (V : ℕ) (ii : List ℤ) (ls : LabelSmoothing)
    (t : ℕ)
    (hinit : LabelSmoothing.init smoothing V (some ii) = some ls)
    (hs0 : 0 < smoothing)
    (hnd : ii.Nodup) (hII : ∀ idx ∈ ii, 0 ≤ idx ∧ idx < (V : ℤ))
    (hden : 0 < (V : ℤ) - 1 - ii.length)
    (hti : (t : ℤ) ∈ ii) :
    (ls.trueDist t).getD t 0 = 1 - smoothing ∧
    (ls.trueDist t).sum =
      1 + smoothing / (((V : ℤ) - 1 - ii.length : ℤ) : ℚ) ∧
    (ls.trueDist t).sum ≠ 1 := by
  have ht : t < V := by
    obtain ⟨h0, hV⟩ := hII (t : ℤ) hti
    omega
  obtain ⟨ls', hls', hconf, hlen, hget⟩ :=
    init_characterization smoothing V ii (by omega) hII
  rw [hinit] at hls'
  have hee : ls = ls' := Option.some_inj.mp hls'
  subst hee
  have hsum := trueDist_sum smoothing V ii ls hinit hnd hII hden t ht
  rw [if_pos hti] at hsum
  refine ⟨?_, hsum, ?_⟩
  · rw [trueDist_getD ls t t (by rw [hlen]; exact ht), if_pos rfl, hconf]
  · rw [hsum]
    have hq : (0 : ℚ) < (((V : ℤ) - 1 - ii.length : ℤ) : ℚ) := by
      exact_mod_cast hden
    have hsv : 0 < smoothing / (((V : ℤ) - 1 - ii.length : ℤ) : ℚ) :=
      div_pos hs0 hq
    intro hcon
    have : smoothing / (((V : ℤ) - 1 - ii.length : ℤ) : ℚ) = 0 := by
      linarith
    exact absurd this (ne_of_gt hsv)

/-- Witness for claim C8 at `smoothing = 2/5`, `V = 5`, `I = [0]`,
`target = 0` (an ignored index). -/
theorem claim_C8_witness :
    ((⟨3/5, [0, 2/15, 2/15, 2/15, 2/15]⟩ :
      LabelSmoothing).trueDist 0).getD 0 0 = 1 - 2/5 ∧
    ((⟨3/5, [0, 2/15, 2/15, 2/15, 2/15]⟩ :
      LabelSmoothing).trueDist 0).sum =
      1 + (2/5 : ℚ) /
        ((((5 : ℕ) : ℤ) - 1 - (([0] : List ℤ).length : ℤ) : ℤ) : ℚ) ∧
    ((⟨3/5, [0, 2/15, 2/15, 2/15, 2/15]⟩ :
      LabelSmoothing).trueDist 0).sum ≠ 1 :=
  claim_C8 (2/5) 5 [0] ⟨3/5, [0, 2/15, 2/15, 2/15, 2/15]⟩ 0
    (by
      simp only [LabelSmoothing.init, applyIgnores, pyGetIdx, List.replicate,
        Option.getD_some, List.length]
      norm_num [List.set])
    (by norm_num) (by decide) (by decide) (by decide) (by decide)

/-- Claim C5 (counterexample): the claim says construction fails whenever
`vocab_size - 1 - |ignore_indices| ≤ 0`, but with `vocab_size = 2` and
two ignored indices the denominator is `-1 ≤ 0` and construction
succeeds (the division just produces a negative smoothing value). -/
theorem claim_C5_counterexample :
    (((2 : ℕ) : ℤ) - 1 - (([0, 1] : List ℤ).length : ℤ) ≤ 0) ∧
    (LabelSmoothing.init (2/5) 2 (some [0, 1])).isSome = true := by
  constructor
  · decide
  · decide

/-- Claim C5 (amended): the source has no `ConfigError`; construction
fails exactly when the denominator `vocab_size - 1 - |ignore_indices|`
equals `0` (`ZeroDivisionError`) or some ignored index is out of range
after Python index normalisation (`IndexError`); in particular a strictly
negative denominator succeeds. -/
theorem claim_C5_amended (smoothing : ℚ) (V : ℕ) (ii : List ℤ) :
    LabelSmoothing.init smoothing V (some ii) = none ↔
      ((V : ℤ) - 1 - ii.length = 0 ∨ ∃ idx ∈ ii, pyGetIdx V idx = none) := by
  simp only [LabelSmoothing.init, Option.getD_some]
  by_cases hden : (V : ℤ) - 1 - ii.length = 0
  · simp [hden]
  · rw [if_neg hden]
    cases hres : applyIgnores V ii
        (List.replicate V (smoothing / (((V : ℤ) - 1 - ii.length : ℤ) : ℚ))) with
    | none =>
      exact iff_of_true rfl (Or.inr ((applyIgnores_eq_none V ii _).mp hres))
    | some oh =>
      refine iff_of_false (by simp) ?_
      rintro (h | hex)
      · exact hden h
      · rw [(applyIgnores_eq_none V ii _).mpr hex] at hres
        cases hres

/-- Claim C10: constructing `LabelSmoothing` with `ignore_indices`
omitted (`None`) behaves exactly as constructing it with the empty list:
the same value results, every template entry is
`smoothing / (vocab_size - 1)` with none forced to `0`, and `forward` of
the two instances agrees on every input. -/
theorem claim_C10 (smoothing : ℚ) (V : ℕ) :
    LabelSmoothing.init smoothing V none =
      LabelSmoothing.init smoothing V (some []) ∧
    (∀ ls, LabelSmoothing.init smoothing V none = some ls →
      ls.one_hot = List.replicate V (smoothing / (((V : ℤ) - 1 : ℤ) : ℚ)) ∧
      ∀ j < V, ls.one_hot.getD j 0 = smoothing / (((V : ℤ) - 1 : ℤ) : ℚ)) ∧
    (∀ ls ls' (mp : List ℝ) (t : ℕ),
      LabelSmoothing.init smoothing V none = some ls →
      LabelSmoothing.init smoothing V (some []) = some ls' →
      ls.forward mp t = ls'.forward mp t) := by
  refine ⟨rfl, ?_, ?_⟩
  · intro ls hls
    simp only [LabelSmoothing.init, applyIgnores, Option.getD_none,
      List.length_nil, Nat.cast_zero, sub_zero] at hls
    by_cases h : (V : ℤ) - 1 = 0
    · rw [if_pos h] at hls
      cases hls
    · rw [if_neg h] at hls
      have hee := Option.some_inj.mp hls
      rw [← hee]
      refine ⟨rfl, ?_⟩
      intro j hj
      rw [List.getD_eq_getElem _ _ (by rw [List.length_replicate]; exact hj),
        List.getElem_replicate]
  · intro ls ls' mp t h1 h2
    have h0 : LabelSmoothing.init smoothing V none =
        LabelSmoothing.init smoothing V (some []) := rfl
    rw [h0, h2] at h1
    have hee := Option.some_inj.mp h1
    rw [hee]

/-- Witness for claim C10 at `smoothing = 2/5`, `V = 5`. -/
theorem claim_C10_witness :
    (LabelSmoothing.init (2/5) 5 none).map LabelSmoothing.one_hot =
      some (List.replicate 5 ((2/5 : ℚ) / ((((5 : ℕ) : ℤ) - 1 : ℤ) : ℚ))) := by
  have hinit : LabelSmoothing.init (2/5) 5 none =
      some ⟨3/5, [1/10, 1/10, 1/10, 1/10, 1/10]⟩ := by
    simp only [LabelSmoothing.init, applyIgnores, Option.getD_none,
      List.replicate]
    norm_num
  have hoh := ((claim_C10 (2/5) 5).2.1
    ⟨3/5, [1/10, 1/10, 1/10, 1/10, 1/10]⟩ hinit).1
  rw [hinit, Option.map_some']
  exact congrArg some hoh

/-- Claim C7: `forward` never mutates the registered `one_hot` template:
the scatter-write happens on the fresh buffer allocated by `repeat`, so
reading the template reference after the call gives the same buffer as
before, while the fresh buffer holds the scattered copy. -/
theorem claim_C7 (σ : Store) (r : ℕ) (c : ℚ) (t : ℕ) (hr : r < σ.length) :
    Store.read (forwardHeap σ r c t).2 r = Store.read σ r ∧
    Store.read (forwardHeap σ r c t).2 (forwardHeap σ r c t).1 =
      (Store.read σ r).set t c := by
  have hfst : (forwardHeap σ r c t).1 = σ.length := rfl
  have hsnd : (forwardHeap σ r c t).2 =
      (σ ++ [σ.getD r []]).set σ.length
        (((σ ++ [σ.getD r []]).getD σ.length []).set t c) := rfl
  have hmid : (σ ++ [σ.getD r []]).getD σ.length [] = σ.getD r [] := by
    rw [List.getD_append_right _ _ _ _ (le_refl _)]
    simp
  have hlen1 : (σ ++ [σ.getD r []]).length = σ.length + 1 := by simp
  constructor
  · show ((forwardHeap σ r c t).2).getD r [] = σ.getD r []
    rw [hsnd]
    rw [List.getD_eq_getElem _ _ (by rw [List.length_set, hlen1]; omega)]
    rw [List.getElem_set, if_neg (by omega)]
    rw [List.getElem_append_left hr]
    exact (List.getD_eq_getElem σ [] hr).symm
  · show ((forwardHeap σ r c t).2).getD (forwardHeap σ r c t).1 [] =
      (σ.getD r []).set t c
    rw [hsnd, hfst]
    rw [List.getD_eq_getElem _ _ (by rw [List.length_set, hlen1]; omega)]
    rw [List.getElem_set, if_pos rfl, hmid]

/-- Witness for claim C7 on a one-buffer store. -/
theorem claim_C7_witness :
    Store.read (forwardHeap [[1, 2]] 0 5 0).2 0 = Store.read [[1, 2]] 0 ∧
    Store.read (forwardHeap [[1, 2]] 0 5 0).2 (forwardHeap [[1, 2]] 0 5 0).1 =
      (Store.read [[1, 2]] 0).set 0 5 :=
  claim_C7 [[1, 2]] 0 5 0 (by decide)

/-! ## Helper lemmas about the attention engine -/

/-- Dividing each mapped term by a constant divides the sum. -/
lemma sum_map_div {α : Type} (l : List α) (f : α → ℝ) (c : ℝ) :
    (l.map (fun x => f x / c)).sum = (l.map f).sum / c := by
  induction l with
  | nil => simp
  | cons a t ih => simp [ih, add_div]

/-- A sum of guarded terms is the sum over the filtered list. -/
lemma sum_map_ite_filter {α : Type} (l : List α) (q : α → Bool) (f : α → ℝ) :
    (l.map (fun x => if q x then f x else 0)).sum =
      ((l.filter q).map f).sum := by
  induction l with
  | nil => simp
  | cons a t ih =>
    by_cases h : q a
    · simp [List.filter_cons, h, ih]
    · simp [List.filter_cons, h, ih]

/-- The softmax denominator is positive as soon as one position is
unmasked. -/
lemma maskDenom_pos (scores : List ℝ) (mask : List ℕ) (j : ℕ)
    (hjs : j < scores.length) (hjm : j < mask.length)
    (hj0 : mask.getD j 0 = 0) :
    0 < maskDenom scores mask := by
  unfold maskDenom
  apply List.sum_pos
  · intro x hx
    obtain ⟨p, hp, hpx⟩ := List.mem_map.mp hx
    rw [← hpx]
    exact Real.exp_pos p.1
  · have hzip : j < (scores.zip mask).length := by
      rw [List.length_zip]
      omega
    have hmem : (scores[j], mask[j]) ∈ scores.zip mask := by
      have hz := @List.getElem_zip ℝ ℕ scores mask j hzip
      rw [← hz]
      exact List.getElem_mem hzip
    have hmask : mask[j] = 0 := by
      rw [← List.getD_eq_getElem mask 0 hjm]
      exact hj0
    have hfmem : (scores[j], mask[j]) ∈
        (scores.zip mask).filter (fun p => p.2 == 0) :=
      List.mem_filter.mpr ⟨hmem, by simp [hmask]⟩
    exact List.ne_nil_of_mem
      (List.mem_map.mpr ⟨(scores[j], mask[j]), hfmem, rfl⟩)

/-- Rows with at least one unmasked position normalise to sum `1`. -/
lemma softmaxMasked_sum (scores : List ℝ) (mask : List ℕ)
    (hpos : 0 < maskDenom scores mask) :
    (softmaxMasked scores mask).sum = 1 := by
  unfold softmaxMasked
  rw [List.map_congr_left (g := fun p : ℝ × ℕ =>
    (if p.2 == 0 then Real.exp p.1 else 0) / maskDenom scores mask)
    (fun p _ => by by_cases h : p.2 == 0 <;> simp [h])]
  rw [sum_map_div, sum_map_ite_filter]
  have hnum : (((scores.zip mask).filter (fun p => p.2 == 0)).map
      (fun p => Real.exp p.1)).sum = maskDenom scores mask := rfl
  rw [hnum]
  exact div_self (ne_of_gt hpos)

/-- Entry `j` of the masked softmax: `0` at masked positions, the
normalised exponential of the raw score at unmasked ones. -/
lemma softmaxMasked_getD (scores : List ℝ) (mask : List ℕ) (j : ℕ)
    (hjs : j < scores.length) (hjm : j < mask.length) :
    (softmaxMasked scores mask).getD j 0 =
      if mask.getD j 0 = 0
      then Real.exp (scores.getD j 0) / maskDenom scores mask
      else 0 := by
  unfold softmaxMasked
  have hzip : j < (scores.zip mask).length := by
    rw [List.length_zip]
    omega
  rw [List.getD_eq_getElem _ _ (by rw [List.length_map]; exact hzip)]
  rw [List.getElem_map, List.getElem_zip]
  rw [List.getD_eq_getElem scores 0 hjs, List.getD_eq_getElem mask 0 hjm]
  by_cases h : mask[j] = 0
  · simp [h]
  · simp [h]

/-- The attention weights returned by `dot_prod_attention` with a mask
are the masked softmax of the raw dot-product scores. -/
lemma dot_prod_attention_snd (h_t : List ℝ) (enc keys : List (List ℝ))
    (mask : List ℕ) :
    (dot_prod_attention h_t enc keys (some mask)).2 =
      softmaxMasked (keys.map (fun row => dotProd row h_t)) mask := rfl

/-- Degenerate case behind claim C6: when every position of the row is
masked, the softmax denominator is the empty sum `0` and, in the
real-valued semantics of the embedding, every weight is `0` (the float
implementation divides `0` by `0` here and silently produces `NaN`
tensors; no exception is raised by the source).  The weights no longer
form a probability distribution. -/
lemma softmaxMasked_all_masked (scores : List ℝ) (mask : List ℕ)
    (h : ∀ p ∈ scores.zip mask, p.2 ≠ 0) :
    maskDenom scores mask = 0 ∧ (softmaxMasked scores mask).sum = 0 := by
  constructor
  · unfold maskDenom
    rw [List.filter_eq_nil_iff.mpr (fun p hp => by simp [h p hp])]
    rfl
  · unfold softmaxMasked
    rw [List.map_congr_left (g := fun p : ℝ × ℕ => (0 : ℝ))
      (fun p hp => by simp [h p hp])]
    simp

/-! ## Claim about the attention engine -/

/-- Claim C1: when every row of the mask has at least one unmasked (`0`)
entry, `dot_prod_attention` applies the mask before the softmax: each
masked (`1`) position gets attention weight `0`, each unmasked position
gets the softmax of its unchanged raw score over the unmasked positions,
and the weights sum to `1`; for raw scores `[2, 1, 0]` and mask
`[0, 0, 1]` the weights are within `0.001` of `[0.731, 0.269, 0]`. -/
theorem claim_C1 :
    (∀ (h_t : List ℝ) (enc keys : List (List ℝ)) (mask : List ℕ) (j₀ : ℕ),
      mask.length = keys.length → j₀ < keys.length → mask.getD j₀ 0 = 0 →
      ((dot_prod_attention h_t enc keys (some mask)).2.sum = 1 ∧
        ∀ j < keys.length,
          (mask.getD j 0 = 1 →
            (dot_prod_attention h_t enc keys (some mask)).2.getD j 0 = 0) ∧
          (mask.getD j 0 = 0 →
            (dot_prod_attention h_t enc keys (some mask)).2.getD j 0 =
              Real.exp (dotProd (keys.getD j []) h_t) /
                maskDenom (keys.map (fun row => dotProd row h_t)) mask))) ∧
    (|(dot_prod_attention [1] [[1], [0], [0]] [[2], [1], [0]]
        (some [0, 0, 1])).2.getD 0 0 - 0.731| < 1/1000 ∧
      |(dot_prod_attention [1] [[1], [0], [0]] [[2], [1], [0]]
        (some [0, 0, 1])).2.getD 1 0 - 0.269| < 1/1000 ∧
      (dot_prod_attention [1] [[1], [0], [0]] [[2], [1], [0]]
        (some [0, 0, 1])).2.getD 2 0 = 0 ∧
      (dot_prod_attention [1] [[1], [0], [0]] [[2], [1], [0]]
        (some [0, 0, 1])).2.sum = 1) := by
  constructor
  · intro h_t enc keys mask j₀ hlen hj₀ hm0
    have hslen : (keys.map (fun row => dotProd row h_t)).length =
        keys.length := List.length_map _ _
    have hd : 0 < maskDenom (keys.map (fun row => dotProd row h_t)) mask :=
      maskDenom_pos _ _ j₀ (by rw [hslen]; exact hj₀)
        (by rw [hlen]; exact hj₀) hm0
    constructor
    · rw [dot_prod_attention_snd]
      exact softmaxMasked_sum _ _ hd
    · intro j hj
      have hw := softmaxMasked_getD (keys.map (fun row => dotProd row h_t))
        mask j (by rw [hslen]; exact hj) (by rw [hlen]; exact hj)
      constructor
      · intro h1
        rw [dot_prod_attention_snd, hw, if_neg (by rw [h1]; norm_num)]
      · intro h0
        rw [dot_prod_attention_snd, hw, if_pos h0]
        have hsc : (keys.map (fun row => dotProd row h_t)).getD j 0 =
            dotProd (keys.getD j []) h_t := by
          rw [List.getD_eq_getElem _ _ (by rw [hslen]; exact hj),
            List.getElem_map, List.getD_eq_getElem _ _ hj]
        rw [hsc]
  · have hscores : ([[2], [1], [0]] : List (List ℝ)).map
        (fun row => dotProd row [1]) = [2, 1, 0] := by
      simp [dotProd]
    have hw : (dot_prod_attention [1] [[1], [0], [0]] [[2], [1], [0]]
        (some [0, 0, 1])).2 =
        [Real.exp 2 / (Real.exp 2 + (Real.exp 1 + 0)),
          Real.exp 1 / (Real.exp 2 + (Real.exp 1 + 0)), 0] := by
      rw [dot_prod_attention_snd, hscores]
      simp [softmaxMasked, maskDenom, List.zip_cons_cons, List.filter,
        List.map]
    have hb : Real.exp 2 = Real.exp 1 * Real.exp 1 := by
      rw [← Real.exp_add]; norm_num
    have h0 : 0 < Real.exp 1 := Real.exp_pos 1
    have hlo : 2.7182818283 < Real.exp 1 := Real.exp_one_gt_d9
    have hhi : Real.exp 1 < 2.7182818286 := Real.exp_one_lt_d9
    have ha1 : 0 < Real.exp 1 + 1 := by linarith
    refine ⟨?_, ?_, ?_, ?_⟩
    · rw [hw]
      have hform : Real.exp 2 / (Real.exp 2 + (Real.exp 1 + 0)) =
          Real.exp 1 / (Real.exp 1 + 1) := by
        rw [hb, show Real.exp 1 * Real.exp 1 + (Real.exp 1 + 0) =
          Real.exp 1 * (Real.exp 1 + 1) by ring,
          mul_div_mul_left _ _ (ne_of_gt h0)]
      have h1 : Real.exp 1 / (Real.exp 1 + 1) < 0.732 := by
        rw [div_lt_iff₀ ha1]; nlinarith
      have h2 : 0.730 < Real.exp 1 / (Real.exp 1 + 1) := by
        rw [lt_div_iff₀ ha1]; nlinarith
      have hget : ([Real.exp 2 / (Real.exp 2 + (Real.exp 1 + 0)),
          Real.exp 1 / (Real.exp 2 + (Real.exp 1 + 0)), 0] : List ℝ).getD 0 0 =
          Real.exp 2 / (Real.exp 2 + (Real.exp 1 + 0)) := rfl
      rw [hget, hform, abs_lt]
      constructor <;> linarith
    · rw [hw]
      have hform : Real.exp 1 / (Real.exp 2 + (Real.exp 1 + 0)) =
          1 / (Real.exp 1 + 1) := by
        rw [hb, show Real.exp 1 * Real.exp 1 + (Real.exp 1 + 0) =
          Real.exp 1 * (Real.exp 1 + 1) by ring,
          div_eq_div_iff (by positivity) (ne_of_gt ha1)]
        ring
      have h1 : 1 / (Real.exp 1 + 1) < 0.270 := by
        rw [div_lt_iff₀ ha1]; nlinarith
      have h2 : 0.268 < 1 / (Real.exp 1 + 1) := by
        rw [lt_div_iff₀ ha1]; nlinarith
      have hget : ([Real.exp 2 / (Real.exp 2 + (Real.exp 1 + 0)),
          Real.exp 1 / (Real.exp 2 + (Real.exp 1 + 0)), 0] : List ℝ).getD 1 0 =
          Real.exp 1 / (Real.exp 2 + (Real.exp 1 + 0)) := rfl
      rw [hget, hform, abs_lt]
      constructor <;> linarith
    · rw [hw]
      rfl
    · rw [dot_prod_attention_snd]
      apply softmaxMasked_sum
      exact maskDenom_pos _ _ 0 (by simp) (by simp) (by simp [hscores])

/-- Witness for claim C1: the general part applied to raw scores
`[2, 1, 0]` with mask `[0, 1, 1]` (one unmasked position). -/
theorem claim_C1_witness :
    (dot_prod_attention [1] [[1], [0], [0]] [[2], [1], [0]]
        (some [0, 1, 1])).2.sum = 1 ∧
    ∀ j < ([[2], [1], [0]] : List (List ℝ)).length,
      (([0, 1, 1] : List ℕ).getD j 0 = 1 →
        (dot_prod_attention [1] [[1], [0], [0]] [[2], [1], [0]]
          (some [0, 1, 1])).2.getD j 0 = 0) ∧
      (([0, 1, 1] : List ℕ).getD j 0 = 0 →
        (dot_prod_attention [1] [[1], [0], [0]] [[2], [1], [0]]
          (some [0, 1, 1])).2.getD j 0 =
          Real.exp (dotProd (([[2], [1], [0]] : List (List ℝ)).getD j []) [1]) /
            maskDenom (([[2], [1], [0]] : List (List ℝ)).map
              (fun row => dotProd row [1])) [0, 1, 1]) :=
  claim_C1.1 [1] [[1], [0], [0]] [[2], [1], [0]] [0, 1, 1] 0
    (by simp) (by simp) rfl

end NNUtils
